import Mathlib

/-!
Verification of the decision-criterion module of `seigtm/decision_making_criterion`.

The repository has two source files, each defining the same three pure
functions in namespace `setm`:

* `src/decision_criteria.cpp`  — array-based variants (`template<class T, size_t rows,
  size_t columns>` over `std::array<std::array<T, columns>, rows>`);
* `src/decision_criterion.cpp` — generic-range-based variants (`consteval` over
  `std::ranges::range`), except `savage`, which is array-based there too.

The element type `T` is instantiated at `double` by the driver; we embed it as `ℚ`,
an exact linearly ordered field: the contracts are purely order/field-algebraic
(min, max, subtraction, the affine Hurwicz blend), so exact arithmetic is the
faithful idealisation of the generic numeric parameter `T`.

A matrix is a `List (List ℚ)` (outer list = rows).  Every partial C++ operation —
dereferencing `std::ranges::min_element` / `max_element` on a possibly empty range,
`std::ranges::max` / `std::ranges::min` of a possibly empty range, and the unchecked
subscript `row[col]` — is embedded with `Option`, `none` marking the branch that is
undefined behaviour in C++.  A non-empty rectangular matrix (`rows ≥ 1`,
`columns ≥ 1`, all rows the same length) is written `matOfFn f` for an entry
function `f : Fin (n+1) → Fin (m+1) → ℚ`; the lemma `rect_eq_matOfFn` shows every
such matrix has this form.
-/

/-- Dereferenced `*std::ranges::min_element(row)`: the least element of the range,
found by a single left-to-right scan (ties keep the first occurrence, which for a
returned value is irrelevant).  `none` models the undefined dereference of the
past-the-end iterator on an empty range.  The same embedding serves
`std::ranges::min(range)`, whose value and emptiness precondition coincide. -/
def minElem : List ℚ → Option ℚ
  | [] => none
  | x :: xs => some (xs.foldl min x)

/-- Dereferenced `*std::ranges::max_element(row)`, and equally
`std::ranges::max(range)`: greatest element of the range, `none` on empty. -/
def maxElem : List ℚ → Option ℚ
  | [] => none
  | x :: xs => some (xs.foldl max x)

namespace Criteria

/-- Embedding of `setm::minimax` from `src/decision_criteria.cpp` (lines 31–36):
`std::ranges::max` over the row range transformed by
`row ↦ *std::ranges::min_element(row)`. -/
def minimax (profits : List (List ℚ)) : Option ℚ := do
  let mins ← profits.mapM minElem
  maxElem mins

/-- One iteration of the column loop of `setm::savage` (lines 54–65 of
`src/decision_criteria.cpp`): find the maximum of column `col` of the current
matrix (`std::ranges::max` over `row ↦ row[col]`), then overwrite every entry of
that column with `max_value - profits[row][col]`. -/
def savageStep (profits : List (List ℚ)) (col : Nat) : Option (List (List ℚ)) := do
  let colVals ← profits.mapM (fun row => row[col]?)
  let maxValue ← maxElem colVals
  profits.mapM (fun row => do
    let v ← row[col]?
    pure (row.set col (maxValue - v)))

/-- Embedding of `setm::savage` from `src/decision_criteria.cpp` (lines 52–71).  The parameter is
taken by value, so the loop mutates a copy private to the call; here the loop is a
fold producing successive versions of that copy.  `columns` is the template
parameter giving the static column count.  After the loop, the result is
`std::ranges::min` over the rows transformed by `row ↦ *max_element(row)`. -/
def savage (columns : Nat) (profits : List (List ℚ)) : Option ℚ := do
  let transformed ← (List.range columns).foldlM savageStep profits
  let maxs ← transformed.mapM maxElem
  minElem maxs

/-- Embedding of `setm::hurwicz` from `src/decision_criteria.cpp` (lines 88–100): a running
maximum over the rows of `coefficient * min_outcome + (1 - coefficient) * max_outcome`.
The accumulator starts at `std::numeric_limits<T>::lowest()`; `ℚ` has no least
element, so the start value is embedded as `none`, the identity of the running
`max` — exactly the role `lowest()` plays for every representable row value. -/
def hurwicz (profits : List (List ℚ)) (coefficient : ℚ) : Option ℚ := do
  let best ← profits.foldlM (fun (maxValue : Option ℚ) row => do
      let minOutcome ← minElem row
      let maxOutcome ← maxElem row
      let hurwiczValue := coefficient * minOutcome + (1 - coefficient) * maxOutcome
      pure (some (match maxValue with
        | none => hurwiczValue
        | some m => max m hurwiczValue))) none
  best

end Criteria

namespace Criterion

/-- Embedding of `setm::minimax` from `src/decision_criterion.cpp` (lines 27–31): textually the
same algorithm as the array-based variant, stated on an arbitrary range of rows. -/
def minimax (profits : List (List ℚ)) : Option ℚ := do
  let mins ← profits.mapM minElem
  maxElem mins

/-- Column loop body of `setm::savage` in `src/decision_criterion.cpp`
(lines 49–60), identical to the other file's. -/
def savageStep (profits : List (List ℚ)) (col : Nat) : Option (List (List ℚ)) := do
  let colVals ← profits.mapM (fun row => row[col]?)
  let maxValue ← maxElem colVals
  profits.mapM (fun row => do
    let v ← row[col]?
    pure (row.set col (maxValue - v)))

/-- Embedding of `setm::savage` from `src/decision_criterion.cpp` (lines 47–66): the `consteval`
array-based variant, algorithmically identical to `Criteria.savage`. -/
def savage (columns : Nat) (profits : List (List ℚ)) : Option ℚ := do
  let transformed ← (List.range columns).foldlM savageStep profits
  let maxs ← transformed.mapM maxElem
  minElem maxs

/-- Embedding of `setm::hurwicz` from `src/decision_criterion.cpp` (lines 80–86):
`std::ranges::max` over the rows transformed to
`coefficient * min_outcome + (1 - coefficient) * max_outcome`; no sentinel
accumulator, the reduction itself demands a non-empty row range. -/
def hurwicz (rng : List (List ℚ)) (coefficient : ℚ) : Option ℚ := do
  let vals ← rng.mapM (fun row => do
      let minOutcome ← minElem row
      let maxOutcome ← maxElem row
      pure (coefficient * minOutcome + (1 - coefficient) * maxOutcome))
  maxElem vals

end Criterion

/-- The non-empty rectangular matrix with `n+1` rows and `m+1` columns whose entry
in row `r`, column `c` is `f r c`. -/
def matOfFn {n m : Nat} (f : Fin n → Fin m → ℚ) : List (List ℚ) :=
  List.ofFn fun r => List.ofFn fun c => f r c

lemma minElem_eq_min? (l : List ℚ) : minElem l = l.min? := by
  cases l <;> rfl

lemma maxElem_eq_max? (l : List ℚ) : maxElem l = l.max? := by
  cases l <;> rfl

lemma minElem_eq_some_iff {l : List ℚ} {a : ℚ} :
    minElem l = some a ↔ a ∈ l ∧ ∀ b ∈ l, a ≤ b := by
  rw [minElem_eq_min?]
  exact @List.min?_eq_some_iff ℚ a _ _ ⟨fun h h' => le_antisymm h h'⟩
    (fun a => le_refl a) (fun a b => min_choice a b) (fun _ _ _ => le_min_iff) l

lemma maxElem_eq_some_iff {l : List ℚ} {a : ℚ} :
    maxElem l = some a ↔ a ∈ l ∧ ∀ b ∈ l, b ≤ a := by
  rw [maxElem_eq_max?]
  exact @List.max?_eq_some_iff ℚ a _ _ ⟨fun h h' => le_antisymm h h'⟩
    (fun a => le_refl a) (fun a b => max_choice a b) (fun _ _ _ => max_le_iff) l

lemma minElem_ofFn {m : Nat} (g : Fin (m + 1) → ℚ) :
    minElem (List.ofFn g) = some (Finset.univ.inf' Finset.univ_nonempty g) := by
  rw [minElem_eq_some_iff]
  obtain ⟨i, -, hi⟩ := Finset.exists_mem_eq_inf' (Finset.univ_nonempty) g
  refine ⟨?_, ?_⟩
  · rw [hi]
    exact (List.mem_ofFn g _).2 ⟨i, rfl⟩
  · intro b hb
    obtain ⟨j, rfl⟩ := (List.mem_ofFn g b).1 hb
    exact Finset.inf'_le g (Finset.mem_univ j)

lemma maxElem_ofFn {m : Nat} (g : Fin (m + 1) → ℚ) :
    maxElem (List.ofFn g) = some (Finset.univ.sup' Finset.univ_nonempty g) := by
  rw [maxElem_eq_some_iff]
  obtain ⟨i, -, hi⟩ := Finset.exists_mem_eq_sup' (Finset.univ_nonempty) g
  refine ⟨?_, ?_⟩
  · rw [hi]
    exact (List.mem_ofFn g _).2 ⟨i, rfl⟩
  · intro b hb
    obtain ⟨j, rfl⟩ := (List.mem_ofFn g b).1 hb
    exact Finset.le_sup' g (Finset.mem_univ j)

lemma mapM_ofFn_eq_some {α β : Type} {n : Nat} {g : Fin n → α} {h : α → Option β}
    {u : Fin n → β} (H : ∀ i, h (g i) = some (u i)) :
    (List.ofFn g).mapM h = some (List.ofFn u) := by
  induction n with
  | zero => rfl
  | succ k ih =>
    rw [List.ofFn_succ, List.ofFn_succ, List.mapM_cons, H 0,
      ih (fun i => H i.succ)]
    rfl

lemma minimax_matOfFn {n m : Nat} (f : Fin (n + 1) → Fin (m + 1) → ℚ) :
    Criteria.minimax (matOfFn f)
      = some (Finset.univ.sup' Finset.univ_nonempty fun r =>
          Finset.univ.inf' Finset.univ_nonempty fun c => f r c) := by
  unfold Criteria.minimax matOfFn
  rw [mapM_ofFn_eq_some (fun r => minElem_ofFn (fun c => f r c))]
  exact maxElem_ofFn _

lemma Criterion.minimax_eq_criteria (M : List (List ℚ)) :
    Criterion.minimax M = Criteria.minimax M := rfl

lemma rect_eq_matOfFn {n m : Nat} (M : List (List ℚ)) (hn : M.length = n + 1)
    (hm : ∀ row ∈ M, row.length = m + 1) :
    ∃ f : Fin (n + 1) → Fin (m + 1) → ℚ, M = matOfFn f := by
  refine ⟨fun r c => (M.getD r []).getD c 0, ?_⟩
  unfold matOfFn
  apply List.ext_getElem
  · rw [List.length_ofFn, hn]
  · intro i h1 h2
    rw [List.getElem_ofFn]
    apply List.ext_getElem
    · rw [List.length_ofFn, hm _ (List.getElem_mem h1)]
    · intro c hc1 hc2
      rw [List.getElem_ofFn]
      show M[i][c] = (M.getD i []).getD c 0
      rw [List.getD_eq_getElem M [] h1, List.getD_eq_getElem _ 0 hc1]

/-- C1: on every non-empty rectangular matrix (written `matOfFn f`, with `n+1 ≥ 1`
rows and `m+1 ≥ 1` columns, all rows the same length), both variants of `minimax`
return the maximum over rows `r` of the minimum over columns `c` of the entry at
`(r, c)`. -/
theorem C1_minimax_is_max_of_row_minima {n m : Nat} (f : Fin (n + 1) → Fin (m + 1) → ℚ) :
    Criteria.minimax (matOfFn f)
        = some (Finset.univ.sup' Finset.univ_nonempty fun r =>
            Finset.univ.inf' Finset.univ_nonempty fun c => f r c)
      ∧ Criterion.minimax (matOfFn f)
        = some (Finset.univ.sup' Finset.univ_nonempty fun r =>
            Finset.univ.inf' Finset.univ_nonempty fun c => f r c) := by
  rw [Criterion.minimax_eq_criteria]
  exact ⟨minimax_matOfFn f, minimax_matOfFn f⟩

lemma getElem?_ofFn_lt {α : Type} {m : Nat} (h : Fin m → α) {k : Nat} (hk : k < m) :
    (List.ofFn h)[k]? = some (h ⟨k, hk⟩) := by
  rw [List.getElem?_ofFn]
  simp [List.ofFnNthVal, hk]

lemma ofFn_set {m : Nat} (g : Fin m → ℚ) (k : Nat) (x : ℚ) :
    (List.ofFn g).set k x
      = List.ofFn (fun c : Fin m => if (c : Nat) = k then x else g c) := by
  apply List.ext_getElem
  · simp
  · intro i h1 h2
    simp only [List.getElem_set, List.getElem_ofFn]
    by_cases hik : k = i
    · simp [hik]
    · simp [hik, Ne.symm hik]

lemma matOfFn_congr {n m : Nat} {f g : Fin n → Fin m → ℚ}
    (h : ∀ r c, f r c = g r c) : matOfFn f = matOfFn g := by
  unfold matOfFn
  exact congrArg List.ofFn (funext fun r => congrArg List.ofFn (funext fun c => h r c))

lemma savageStep_matOfFn {n m : Nat} (g : Fin (n + 1) → Fin (m + 1) → ℚ) {k : Nat}
    (hk : k < m + 1) :
    Criteria.savageStep (matOfFn g) k
      = some (matOfFn fun r c =>
          if (c : Nat) = k
          then (Finset.univ.sup' Finset.univ_nonempty fun q => g q ⟨k, hk⟩) - g r c
          else g r c) := by
  have h1 : (matOfFn g).mapM (fun row => row[k]?)
      = some (List.ofFn fun r => g r ⟨k, hk⟩) :=
    mapM_ofFn_eq_some (fun r => getElem?_ofFn_lt (fun c => g r c) hk)
  have h3 : (matOfFn g).mapM (fun row => do
        let v ← row[k]?
        pure (row.set k
          ((Finset.univ.sup' Finset.univ_nonempty fun q => g q ⟨k, hk⟩) - v)))
      = some (matOfFn fun r c =>
          if (c : Nat) = k
          then (Finset.univ.sup' Finset.univ_nonempty fun q => g q ⟨k, hk⟩) - g r c
          else g r c) := by
    apply mapM_ofFn_eq_some
    intro r
    show ((List.ofFn fun c => g r c)[k]?).bind _ = _
    rw [getElem?_ofFn_lt (fun c => g r c) hk, Option.some_bind]
    show some ((List.ofFn fun c => g r c).set k _) = _
    rw [ofFn_set]
    apply congrArg some
    apply congrArg List.ofFn
    funext c
    dsimp only
    by_cases hc : (c : Nat) = k
    · have hck : c = (⟨k, hk⟩ : Fin (m + 1)) := Fin.ext hc
      rw [if_pos hc, if_pos hc, hck]
    · rw [if_neg hc, if_neg hc]
  unfold Criteria.savageStep
  show ((matOfFn g).mapM fun row => row[k]?).bind _ = _
  rw [h1, Option.some_bind]
  show (maxElem _).bind _ = _
  rw [maxElem_ofFn (fun r => g r ⟨k, hk⟩), Option.some_bind]
  exact h3

lemma savage_partial_step {n m : Nat} (f : Fin (n + 1) → Fin (m + 1) → ℚ) {j : Nat}
    (hj : j < m + 1) (r : Fin (n + 1)) (c : Fin (m + 1)) :
    (if (c : Nat) = j
     then (Finset.univ.sup' Finset.univ_nonempty fun q =>
            if ((⟨j, hj⟩ : Fin (m + 1)) : Nat) < j
            then (Finset.univ.sup' Finset.univ_nonempty fun p => f p ⟨j, hj⟩) - f q ⟨j, hj⟩
            else f q ⟨j, hj⟩)
          - (if (c : Nat) < j
             then (Finset.univ.sup' Finset.univ_nonempty fun q => f q c) - f r c
             else f r c)
     else (if (c : Nat) < j
           then (Finset.univ.sup' Finset.univ_nonempty fun q => f q c) - f r c
           else f r c))
    = (if (c : Nat) < j + 1
       then (Finset.univ.sup' Finset.univ_nonempty fun q => f q c) - f r c
       else f r c) := by
  have hsup : (Finset.univ.sup' Finset.univ_nonempty fun q =>
      if ((⟨j, hj⟩ : Fin (m + 1)) : Nat) < j
      then (Finset.univ.sup' Finset.univ_nonempty fun p => f p ⟨j, hj⟩) - f q ⟨j, hj⟩
      else f q ⟨j, hj⟩)
      = Finset.univ.sup' Finset.univ_nonempty fun q => f q ⟨j, hj⟩ := by
    apply Finset.sup'_congr
    · rfl
    · intro q _
      exact if_neg (by simp)
  rw [hsup]
  by_cases hc : (c : Nat) = j
  · have hck : c = (⟨j, hj⟩ : Fin (m + 1)) := Fin.ext hc
    rw [if_pos hc, if_neg (by rw [hc]; exact lt_irrefl j),
      if_pos (by rw [hc]; exact Nat.lt_succ_self j), hck]
  · rw [if_neg hc]
    by_cases hlt : (c : Nat) < j
    · rw [if_pos hlt, if_pos (Nat.lt_succ_of_lt hlt)]
    · rw [if_neg hlt, if_neg (fun hcs =>
        (Nat.lt_succ_iff_lt_or_eq.1 hcs).elim hlt hc)]

lemma savage_loop_matOfFn {n m : Nat} (f : Fin (n + 1) → Fin (m + 1) → ℚ) :
    ∀ k, k ≤ m + 1 →
      (List.range k).foldlM Criteria.savageStep (matOfFn f)
        = some (matOfFn fun r c =>
            if (c : Nat) < k
            then (Finset.univ.sup' Finset.univ_nonempty fun q => f q c) - f r c
            else f r c) := by
  intro k
  induction k with
  | zero =>
    intro _
    show some (matOfFn f) = _
    exact congrArg some (matOfFn_congr fun r c => (if_neg (Nat.not_lt_zero _)).symm)
  | succ j ih =>
    intro hk
    have hj : j < m + 1 := hk
    rw [List.range_succ, List.foldlM_append, ih (Nat.le_of_lt hj)]
    show ((some _).bind _ : Option (List (List ℚ))) = _
    rw [Option.some_bind]
    show ((Criteria.savageStep _ j).bind _ : Option (List (List ℚ))) = _
    rw [savageStep_matOfFn _ hj, Option.some_bind]
    show some _ = _
    apply congrArg some
    apply matOfFn_congr
    intro r c
    dsimp only
    exact savage_partial_step f hj r c

lemma Criterion.savage_eq_criteria (columns : Nat) (M : List (List ℚ)) :
    Criterion.savage columns M = Criteria.savage columns M := rfl

lemma savage_matOfFn {n m : Nat} (f : Fin (n + 1) → Fin (m + 1) → ℚ) :
    Criteria.savage (m + 1) (matOfFn f)
      = some (Finset.univ.inf' Finset.univ_nonempty fun r =>
          Finset.univ.sup' Finset.univ_nonempty fun c =>
            (Finset.univ.sup' Finset.univ_nonempty fun q => f q c) - f r c) := by
  unfold Criteria.savage
  rw [savage_loop_matOfFn f (m + 1) le_rfl]
  show (some _).bind _ = _
  rw [Option.some_bind]
  have hmat : (matOfFn fun r c =>
      if (c : Nat) < m + 1
      then (Finset.univ.sup' Finset.univ_nonempty fun q => f q c) - f r c
      else f r c)
      = matOfFn fun r c =>
          (Finset.univ.sup' Finset.univ_nonempty fun q => f q c) - f r c :=
    matOfFn_congr fun r c => if_pos c.isLt
  rw [hmat]
  show ((matOfFn _).mapM maxElem).bind _ = _
  unfold matOfFn
  rw [mapM_ofFn_eq_some (fun r => maxElem_ofFn
    (fun c => (Finset.univ.sup' Finset.univ_nonempty fun q => f q c) - f r c)),
    Option.some_bind]
  exact minElem_ofFn _

/-- C2: on every non-empty rectangular matrix `matOfFn f`, both variants of
`savage` return the minimum over rows `r` of the maximum over columns `c` of the
regret `(max over rows q of the entry at (q, c)) - entry at (r, c)`, the column
maxima being those of the original, untransformed matrix. -/
theorem C2_savage_is_min_of_max_regret {n m : Nat} (f : Fin (n + 1) → Fin (m + 1) → ℚ) :
    Criteria.savage (m + 1) (matOfFn f)
        = some (Finset.univ.inf' Finset.univ_nonempty fun r =>
            Finset.univ.sup' Finset.univ_nonempty fun c =>
              (Finset.univ.sup' Finset.univ_nonempty fun q => f q c) - f r c)
      ∧ Criterion.savage (m + 1) (matOfFn f)
        = some (Finset.univ.inf' Finset.univ_nonempty fun r =>
            Finset.univ.sup' Finset.univ_nonempty fun c =>
              (Finset.univ.sup' Finset.univ_nonempty fun q => f q c) - f r c) := by
  rw [Criterion.savage_eq_criteria]
  exact ⟨savage_matOfFn f, savage_matOfFn f⟩

/-- The value computed for one row inside both `hurwicz` variants:
`coefficient * min_outcome + (1 - coefficient) * max_outcome`. -/
def hurwiczRowValue (α : ℚ) (row : List ℚ) : Option ℚ := do
  let minOutcome ← minElem row
  let maxOutcome ← maxElem row
  pure (α * minOutcome + (1 - α) * maxOutcome)

/-- The loop body of the array-based `hurwicz`:
`max_value = std::max(max_value, hurwicz_value)`, with the `lowest()` start
embedded as `none`. -/
def hurwiczFoldStep (α : ℚ) (maxValue : Option ℚ) (row : List ℚ) :
    Option (Option ℚ) := do
  let minOutcome ← minElem row
  let maxOutcome ← maxElem row
  let hurwiczValue := α * minOutcome + (1 - α) * maxOutcome
  pure (some (match maxValue with
    | none => hurwiczValue
    | some m => max m hurwiczValue))

lemma hurwiczA_eq_fold (M : List (List ℚ)) (α : ℚ) :
    Criteria.hurwicz M α
      = (M.foldlM (hurwiczFoldStep α) none).bind (fun best => best) := rfl

lemma hurwiczR_eq_mapM (M : List (List ℚ)) (α : ℚ) :
    Criterion.hurwicz M α = (M.mapM (hurwiczRowValue α)).bind maxElem := rfl

lemma hurwiczFoldStep_eq_rowValue (α : ℚ) (acc : Option ℚ) (row : List ℚ) :
    hurwiczFoldStep α acc row
      = (hurwiczRowValue α row).map (fun hv => some (match acc with
          | none => hv
          | some m => max m hv)) := by
  unfold hurwiczFoldStep hurwiczRowValue
  cases minElem row with
  | none => rfl
  | some mn =>
    cases maxElem row with
    | none => rfl
    | some mx => rfl

lemma hurwicz_fold_go (α : ℚ) :
    ∀ (M : List (List ℚ)) (x : ℚ),
      M.foldlM (hurwiczFoldStep α) (some x)
        = (M.mapM (hurwiczRowValue α)).map (fun vals => some (vals.foldl max x)) := by
  intro M
  induction M with
  | nil => intro x; rfl
  | cons row rest ih =>
    intro x
    rw [List.foldlM_cons, List.mapM_cons, hurwiczFoldStep_eq_rowValue]
    cases hrow : hurwiczRowValue α row with
    | none => rfl
    | some hv =>
      show ((some (some (max x hv)) : Option (Option ℚ)).bind
          fun init => rest.foldlM (hurwiczFoldStep α) init) = _
      rw [Option.some_bind, ih (max x hv)]
      cases hrest : rest.mapM (hurwiczRowValue α) with
      | none => rfl
      | some vals => simp [List.foldl_cons]

lemma hurwicz_variants_eq (M : List (List ℚ)) (α : ℚ) :
    Criteria.hurwicz M α = Criterion.hurwicz M α := by
  rw [hurwiczA_eq_fold, hurwiczR_eq_mapM]
  cases M with
  | nil => rfl
  | cons row rest =>
    rw [List.foldlM_cons, List.mapM_cons, hurwiczFoldStep_eq_rowValue]
    cases hrow : hurwiczRowValue α row with
    | none => rfl
    | some hv =>
      show (((some (some hv) : Option (Option ℚ)).bind
          fun init => rest.foldlM (hurwiczFoldStep α) init).bind fun best => best) = _
      rw [Option.some_bind, hurwicz_fold_go α rest hv]
      cases hrest : rest.mapM (hurwiczRowValue α) with
      | none => rfl
      | some vals => simp [maxElem]

lemma hurwiczRowValue_ofFn (α : ℚ) {m : Nat} (g : Fin (m + 1) → ℚ) :
    hurwiczRowValue α (List.ofFn g)
      = some (α * (Finset.univ.inf' Finset.univ_nonempty g)
          + (1 - α) * (Finset.univ.sup' Finset.univ_nonempty g)) := by
  unfold hurwiczRowValue
  show (minElem (List.ofFn g)).bind _ = _
  rw [minElem_ofFn, Option.some_bind]
  show (maxElem (List.ofFn g)).bind _ = _
  rw [maxElem_ofFn, Option.some_bind]
  rfl

lemma hurwiczR_matOfFn {n m : Nat} (α : ℚ) (f : Fin (n + 1) → Fin (m + 1) → ℚ) :
    Criterion.hurwicz (matOfFn f) α
      = some (Finset.univ.sup' Finset.univ_nonempty fun r =>
          α * (Finset.univ.inf' Finset.univ_nonempty fun c => f r c)
          + (1 - α) * (Finset.univ.sup' Finset.univ_nonempty fun c => f r c)) := by
  rw [hurwiczR_eq_mapM]
  unfold matOfFn
  rw [mapM_ofFn_eq_some (fun r => hurwiczRowValue_ofFn α (fun c => f r c)),
    Option.some_bind]
  exact maxElem_ofFn _

lemma hurwiczA_matOfFn {n m : Nat} (α : ℚ) (f : Fin (n + 1) → Fin (m + 1) → ℚ) :
    Criteria.hurwicz (matOfFn f) α
      = some (Finset.univ.sup' Finset.univ_nonempty fun r =>
          α * (Finset.univ.inf' Finset.univ_nonempty fun c => f r c)
          + (1 - α) * (Finset.univ.sup' Finset.univ_nonempty fun c => f r c)) := by
  rw [hurwicz_variants_eq]
  exact hurwiczR_matOfFn α f

/-- C3: on every non-empty rectangular matrix `matOfFn f` and for every
coefficient `α` — the statement quantifies over all of `ℚ`, so values outside
`[0, 1]` are accepted without any validation — both variants of `hurwicz` return
the maximum over rows `r` of
`α * (minimum of row r) + (1 - α) * (maximum of row r)`. -/
theorem C3_hurwicz_is_max_weighted_blend {n m : Nat} (α : ℚ)
    (f : Fin (n + 1) → Fin (m + 1) → ℚ) :
    Criteria.hurwicz (matOfFn f) α
        = some (Finset.univ.sup' Finset.univ_nonempty fun r =>
            α * (Finset.univ.inf' Finset.univ_nonempty fun c => f r c)
            + (1 - α) * (Finset.univ.sup' Finset.univ_nonempty fun c => f r c))
      ∧ Criterion.hurwicz (matOfFn f) α
        = some (Finset.univ.sup' Finset.univ_nonempty fun r =>
            α * (Finset.univ.inf' Finset.univ_nonempty fun c => f r c)
            + (1 - α) * (Finset.univ.sup' Finset.univ_nonempty fun c => f r c)) :=
  ⟨hurwiczA_matOfFn α f, hurwiczR_matOfFn α f⟩

/-- C4: the array-based variants (`src/decision_criteria.cpp`) and the
generic-range-based variants (`src/decision_criterion.cpp`) of `minimax`,
`savage`, and `hurwicz` agree on every matrix, every static column count, and
every coefficient — in particular the two `savage` variants are equivalent. -/
theorem C4_variants_agree (M : List (List ℚ)) (columns : Nat) (α : ℚ) :
    Criteria.minimax M = Criterion.minimax M
      ∧ Criteria.savage columns M = Criterion.savage columns M
      ∧ Criteria.hurwicz M α = Criterion.hurwicz M α :=
  ⟨rfl, rfl, hurwicz_variants_eq M α⟩

/-- Model of one call `setm::savage(caller_matrix)` at the call boundary: the
argument is a `std::array` passed by value, so the callee's column loop mutates a
working copy while the caller's object stays untouched in the caller's frame.  The
state is the pair (caller's matrix, callee's working copy); the loop body acts on
the copy only, exactly as `profits[row][col] = max_value - profits[row][col]`
names the parameter and never the caller's object.  The returned pair is (scalar
result, caller's matrix as left in memory after the call). -/
def savageCall (columns : Nat) (caller : List (List ℚ)) :
    Option ℚ × List (List ℚ) :=
  match (List.range columns).foldlM
      (fun st col => do
        let p ← Criteria.savageStep st.2 col
        pure (st.1, p))
      (caller, caller) with
  | none => (none, caller)
  | some (callerAfter, transformed) =>
    ((do let maxs ← transformed.mapM maxElem
         minElem maxs), callerAfter)

lemma savageCall_loop (M : List (List ℚ)) :
    ∀ (l : List Nat) (P : List (List ℚ)),
      l.foldlM (fun (st : List (List ℚ) × List (List ℚ)) col => do
          let p ← Criteria.savageStep st.2 col
          pure (st.1, p)) (M, P)
        = (l.foldlM Criteria.savageStep P).map (fun p => (M, p)) := by
  intro l
  induction l with
  | nil => intro P; rfl
  | cons c cs ih =>
    intro P
    rw [List.foldlM_cons, List.foldlM_cons]
    cases hst : Criteria.savageStep P c with
    | none => rfl
    | some P' =>
      show ((some (M, P') : Option (List (List ℚ) × List (List ℚ))).bind
          fun st => cs.foldlM _ st) = ((some P' : Option (List (List ℚ))).bind
          fun p => cs.foldlM Criteria.savageStep p).map (fun p => (M, p))
      rw [Option.some_bind, Option.some_bind]
      exact ih P'

/-- C5: calling `savage` leaves the caller's matrix unchanged — the regret
transform runs on a working copy private to the invocation, and the call's result
is exactly the `savage` of the original matrix (the definitionally equal
`Criterion.savage` included). -/
theorem C5_savage_leaves_caller_unchanged (columns : Nat) (M : List (List ℚ)) :
    (savageCall columns M).2 = M
      ∧ (savageCall columns M).1 = Criteria.savage columns M
      ∧ (savageCall columns M).1 = Criterion.savage columns M := by
  unfold savageCall
  rw [savageCall_loop M (List.range columns) M]
  cases hloop : (List.range columns).foldlM Criteria.savageStep M with
  | none =>
    refine ⟨rfl, ?_, ?_⟩
    · show (none : Option ℚ) = Criteria.savage columns M
      unfold Criteria.savage
      rw [hloop]
      rfl
    · show (none : Option ℚ) = Criterion.savage columns M
      rw [Criterion.savage_eq_criteria]
      unfold Criteria.savage
      rw [hloop]
      rfl
  | some P =>
    refine ⟨rfl, ?_, ?_⟩
    · show _ = Criteria.savage columns M
      unfold Criteria.savage
      rw [hloop]
      rfl
    · show _ = Criterion.savage columns M
      rw [Criterion.savage_eq_criteria]
      unfold Criteria.savage
      rw [hloop]
      rfl

lemma hurwiczRowValue_one (row : List ℚ) : hurwiczRowValue 1 row = minElem row := by
  unfold hurwiczRowValue
  cases row with
  | nil => rfl
  | cons x xs =>
    show (some (xs.foldl min x)).bind _ = _
    rw [Option.some_bind]
    show (some (xs.foldl max x)).bind _ = _
    rw [Option.some_bind]
    show some (1 * xs.foldl min x + (1 - 1) * xs.foldl max x) = some (xs.foldl min x)
    exact congrArg some (by ring)

lemma hurwiczRowValue_zero (row : List ℚ) : hurwiczRowValue 0 row = maxElem row := by
  unfold hurwiczRowValue
  cases row with
  | nil => rfl
  | cons x xs =>
    show (some (xs.foldl min x)).bind _ = _
    rw [Option.some_bind]
    show (some (xs.foldl max x)).bind _ = _
    rw [Option.some_bind]
    show some (0 * xs.foldl min x + (1 - 0) * xs.foldl max x) = some (xs.foldl max x)
    exact congrArg some (by ring)

lemma mapM_congr_opt {α β : Type} {f g : α → Option β} :
    ∀ (l : List α), (∀ a ∈ l, f a = g a) → l.mapM f = l.mapM g := by
  intro l
  induction l with
  | nil => intro _; rfl
  | cons a t ih =>
    intro h
    rw [List.mapM_cons, List.mapM_cons, h a (List.mem_cons_self a t),
      ih (fun b hb => h b (List.mem_cons_of_mem a hb))]

lemma hurwicz_one_eq_minimax (M : List (List ℚ)) :
    Criterion.hurwicz M 1 = Criterion.minimax M := by
  rw [hurwiczR_eq_mapM]
  show _ = (M.mapM minElem).bind maxElem
  rw [mapM_congr_opt M (fun row _ => hurwiczRowValue_one row)]

lemma hurwicz_zero_eq_maximax (M : List (List ℚ)) :
    Criterion.hurwicz M 0 = (M.mapM maxElem).bind maxElem := by
  rw [hurwiczR_eq_mapM, mapM_congr_opt M (fun row _ => hurwiczRowValue_zero row)]

/-- C6: at coefficient `1` both `hurwicz` variants coincide with `minimax` (the
pure pessimistic Wald criterion, maximum over rows of the per-row minimum), and
at coefficient `0` both return the maximum over rows of the per-row maximum
(pure optimism), stated on every non-empty rectangular matrix `matOfFn f` (the
coefficient-`1` equalities in fact hold on every matrix). -/
theorem C6_hurwicz_boundary {n m : Nat} (f : Fin (n + 1) → Fin (m + 1) → ℚ) :
    Criteria.hurwicz (matOfFn f) 1 = Criteria.minimax (matOfFn f)
      ∧ Criterion.hurwicz (matOfFn f) 1 = Criterion.minimax (matOfFn f)
      ∧ Criteria.hurwicz (matOfFn f) 0
        = some (Finset.univ.sup' Finset.univ_nonempty fun r =>
            Finset.univ.sup' Finset.univ_nonempty fun c => f r c)
      ∧ Criterion.hurwicz (matOfFn f) 0
        = some (Finset.univ.sup' Finset.univ_nonempty fun r =>
            Finset.univ.sup' Finset.univ_nonempty fun c => f r c) := by
  have h0 : Criterion.hurwicz (matOfFn f) 0
      = some (Finset.univ.sup' Finset.univ_nonempty fun r =>
          Finset.univ.sup' Finset.univ_nonempty fun c => f r c) := by
    rw [hurwicz_zero_eq_maximax]
    unfold matOfFn
    rw [mapM_ofFn_eq_some (fun r => maxElem_ofFn (fun c => f r c)),
      Option.some_bind]
    exact maxElem_ofFn _
  refine ⟨?_, hurwicz_one_eq_minimax _, ?_, h0⟩
  · rw [hurwicz_variants_eq]
    exact hurwicz_one_eq_minimax _
  · rw [hurwicz_variants_eq]
    exact h0

lemma sup'_comp_perm {k : Nat} (g : Fin (k + 1) → ℚ) (σ : Equiv.Perm (Fin (k + 1))) :
    (Finset.univ.sup' Finset.univ_nonempty fun i => g (σ i))
      = Finset.univ.sup' Finset.univ_nonempty g := by
  apply le_antisymm
  · exact Finset.sup'_le _ _ fun i _ => Finset.le_sup' g (Finset.mem_univ (σ i))
  · apply Finset.sup'_le
    intro i _
    have h := Finset.le_sup' (fun j => g (σ j)) (Finset.mem_univ (σ.symm i))
    simpa using h

lemma inf'_comp_perm {k : Nat} (g : Fin (k + 1) → ℚ) (σ : Equiv.Perm (Fin (k + 1))) :
    (Finset.univ.inf' Finset.univ_nonempty fun i => g (σ i))
      = Finset.univ.inf' Finset.univ_nonempty g := by
  apply le_antisymm
  · apply Finset.le_inf'
    intro i _
    have h := Finset.inf'_le (fun j => g (σ j)) (Finset.mem_univ (σ.symm i))
    simpa using h
  · apply Finset.le_inf'
    intro i _
    exact Finset.inf'_le g (Finset.mem_univ (σ i))

/-- C7: permuting the rows of a non-empty rectangular matrix by `σ` and its
columns by `τ` (so row permutations alone are the case `τ = 1`, and column
permutations alone the case `σ = 1`) changes the result of none of `minimax`,
`savage` — included — and `hurwicz` at any coefficient, in either variant. -/
theorem C7_permutation_invariance {n m : Nat} (f : Fin (n + 1) → Fin (m + 1) → ℚ)
    (σ : Equiv.Perm (Fin (n + 1))) (τ : Equiv.Perm (Fin (m + 1))) (α : ℚ) :
    Criteria.minimax (matOfFn fun r c => f (σ r) (τ c)) = Criteria.minimax (matOfFn f)
      ∧ Criteria.savage (m + 1) (matOfFn fun r c => f (σ r) (τ c))
          = Criteria.savage (m + 1) (matOfFn f)
      ∧ Criteria.hurwicz (matOfFn fun r c => f (σ r) (τ c)) α
          = Criteria.hurwicz (matOfFn f) α
      ∧ Criterion.minimax (matOfFn fun r c => f (σ r) (τ c)) = Criterion.minimax (matOfFn f)
      ∧ Criterion.savage (m + 1) (matOfFn fun r c => f (σ r) (τ c))
          = Criterion.savage (m + 1) (matOfFn f)
      ∧ Criterion.hurwicz (matOfFn fun r c => f (σ r) (τ c)) α
          = Criterion.hurwicz (matOfFn f) α := by
  have hmm : Criteria.minimax (matOfFn fun r c => f (σ r) (τ c))
      = Criteria.minimax (matOfFn f) := by
    rw [minimax_matOfFn, minimax_matOfFn]
    apply congrArg some
    have h1 : (Finset.univ.sup' Finset.univ_nonempty fun r =>
        Finset.univ.inf' Finset.univ_nonempty fun c => f (σ r) (τ c))
        = Finset.univ.sup' Finset.univ_nonempty fun r =>
            Finset.univ.inf' Finset.univ_nonempty fun c => f (σ r) c := by
      apply Finset.sup'_congr
      · rfl
      · intro r _
        exact inf'_comp_perm (fun c => f (σ r) c) τ
    rw [h1]
    exact sup'_comp_perm (fun r => Finset.univ.inf' Finset.univ_nonempty fun c => f r c) σ
  have hsv : Criteria.savage (m + 1) (matOfFn fun r c => f (σ r) (τ c))
      = Criteria.savage (m + 1) (matOfFn f) := by
    rw [savage_matOfFn, savage_matOfFn]
    apply congrArg some
    have h1 : (Finset.univ.inf' Finset.univ_nonempty fun r =>
        Finset.univ.sup' Finset.univ_nonempty fun c =>
          (Finset.univ.sup' Finset.univ_nonempty fun q => f (σ q) (τ c)) - f (σ r) (τ c))
        = Finset.univ.inf' Finset.univ_nonempty fun r =>
            Finset.univ.sup' Finset.univ_nonempty fun c =>
              (Finset.univ.sup' Finset.univ_nonempty fun q => f q (τ c)) - f (σ r) (τ c) := by
      apply Finset.inf'_congr
      · rfl
      · intro r _
        apply Finset.sup'_congr
        · rfl
        · intro c _
          rw [sup'_comp_perm (fun q => f q (τ c)) σ]
    have h2 : (Finset.univ.inf' Finset.univ_nonempty fun r =>
        Finset.univ.sup' Finset.univ_nonempty fun c =>
          (Finset.univ.sup' Finset.univ_nonempty fun q => f q (τ c)) - f (σ r) (τ c))
        = Finset.univ.inf' Finset.univ_nonempty fun r =>
            Finset.univ.sup' Finset.univ_nonempty fun c =>
              (Finset.univ.sup' Finset.univ_nonempty fun q => f q c) - f (σ r) c := by
      apply Finset.inf'_congr
      · rfl
      · intro r _
        exact sup'_comp_perm
          (fun c => (Finset.univ.sup' Finset.univ_nonempty fun q => f q c) - f (σ r) c) τ
    rw [h1, h2]
    exact inf'_comp_perm (fun r => Finset.univ.sup' Finset.univ_nonempty fun c =>
      (Finset.univ.sup' Finset.univ_nonempty fun q => f q c) - f r c) σ
  have hhw : Criteria.hurwicz (matOfFn fun r c => f (σ r) (τ c)) α
      = Criteria.hurwicz (matOfFn f) α := by
    rw [hurwiczA_matOfFn, hurwiczA_matOfFn]
    apply congrArg some
    have h1 : (Finset.univ.sup' Finset.univ_nonempty fun r =>
        α * (Finset.univ.inf' Finset.univ_nonempty fun c => f (σ r) (τ c))
        + (1 - α) * (Finset.univ.sup' Finset.univ_nonempty fun c => f (σ r) (τ c)))
        = Finset.univ.sup' Finset.univ_nonempty fun r =>
            α * (Finset.univ.inf' Finset.univ_nonempty fun c => f (σ r) c)
            + (1 - α) * (Finset.univ.sup' Finset.univ_nonempty fun c => f (σ r) c) := by
      apply Finset.sup'_congr
      · rfl
      · intro r _
        rw [inf'_comp_perm (fun c => f (σ r) c) τ, sup'_comp_perm (fun c => f (σ r) c) τ]
    rw [h1]
    exact sup'_comp_perm (fun r =>
      α * (Finset.univ.inf' Finset.univ_nonempty fun c => f r c)
      + (1 - α) * (Finset.univ.sup' Finset.univ_nonempty fun c => f r c)) σ
  have hhw' : Criterion.hurwicz (matOfFn fun r c => f (σ r) (τ c)) α
      = Criterion.hurwicz (matOfFn f) α := by
    rw [← hurwicz_variants_eq, ← hurwicz_variants_eq]
    exact hhw
  exact ⟨hmm, hsv, hhw, hmm, hsv, hhw'⟩

/-- The regret transform alone: the column loop of `savage` (lines 54–65 of
`src/decision_criteria.cpp`, lines 49–60 of `src/decision_criterion.cpp`),
replacing every entry with column maximum minus entry and leaving the final
min-of-row-maxima reduction out. -/
def regretTransform (columns : Nat) (M : List (List ℚ)) : Option (List (List ℚ)) :=
  (List.range columns).foldlM Criteria.savageStep M

/-- C8: the regret transform is not an involution: on the non-empty rectangular
2×1 matrix `[[1], [2]]` (1 column), applying it twice yields `[[0], [1]]`, not
the original matrix. -/
theorem C8_regret_transform_not_involutive :
    ∃ (columns : Nat) (M : List (List ℚ)),
      ((regretTransform columns M).bind (regretTransform columns)) ≠ some M := by
  refine ⟨1, [[1], [2]], ?_⟩
  norm_num [regretTransform, Criteria.savageStep, minElem, maxElem, max_def,
    List.range_succ, List.foldlM, List.mapM_cons, List.mapM_nil, List.mapM.loop,
    List.set]

/-- C9: on every non-empty rectangular matrix `matOfFn f`, both `savage` variants
return a non-negative value: every regret entry is a column maximum minus an
entry of that column, hence non-negative, and so are the row maxima and their
minimum. -/
theorem C9_savage_nonneg {n m : Nat} (f : Fin (n + 1) → Fin (m + 1) → ℚ) :
    ∃ v, Criteria.savage (m + 1) (matOfFn f) = some v
      ∧ Criterion.savage (m + 1) (matOfFn f) = some v
      ∧ 0 ≤ v := by
  refine ⟨_, savage_matOfFn f, ?_, ?_⟩
  · rw [Criterion.savage_eq_criteria]
    exact savage_matOfFn f
  · apply Finset.le_inf'
    intro r _
    calc (0 : ℚ)
        ≤ (Finset.univ.sup' Finset.univ_nonempty fun q => f q 0) - f r 0 :=
          sub_nonneg.2 (Finset.le_sup' (fun q => f q 0) (Finset.mem_univ r))
      _ ≤ Finset.univ.sup' Finset.univ_nonempty fun c =>
            (Finset.univ.sup' Finset.univ_nonempty fun q => f q c) - f r c :=
          Finset.le_sup'
            (fun c => (Finset.univ.sup' Finset.univ_nonempty fun q => f q c) - f r c)
            (Finset.mem_univ 0)

/-- C10: on every non-empty rectangular matrix `matOfFn f` (rows ≥ 1,
columns ≥ 1), all six embedded functions return `some`: since every partial
operation (each `min_element` / `max_element` dereference, each `ranges::max` /
`ranges::min`, each column subscript in `savage`) is embedded with `none` for its
empty/out-of-range branch and any inner `none` propagates to the result, a `some`
result certifies that no reduction ever saw an empty range. -/
theorem C10_no_empty_reduction {n m : Nat} (α : ℚ)
    (f : Fin (n + 1) → Fin (m + 1) → ℚ) :
    (Criteria.minimax (matOfFn f)).isSome = true
      ∧ (Criteria.savage (m + 1) (matOfFn f)).isSome = true
      ∧ (Criteria.hurwicz (matOfFn f) α).isSome = true
      ∧ (Criterion.minimax (matOfFn f)).isSome = true
      ∧ (Criterion.savage (m + 1) (matOfFn f)).isSome = true
      ∧ (Criterion.hurwicz (matOfFn f) α).isSome = true := by
  refine ⟨?_, ?_, ?_, ?_, ?_, ?_⟩
  · rw [minimax_matOfFn]
    rfl
  · rw [savage_matOfFn]
    rfl
  · rw [hurwiczA_matOfFn]
    rfl
  · rw [Criterion.minimax_eq_criteria, minimax_matOfFn]
    rfl
  · rw [Criterion.savage_eq_criteria, savage_matOfFn]
    rfl
  · rw [hurwiczR_matOfFn]
    rfl
